import Mathlib

/-!
Verification of the recency-ordered upsert ledger of `src/project.py`.

The script keeps a Python `OrderedDict` mapping `(filename, name)` to a list
of interest strings.  We embed that dictionary as an association list whose
order is the `OrderedDict` insertion order: `od[key] = v` on a fresh key
appends at the end, on an existing key it updates the value in place, and
`del od[key]` removes the entry.  The per-person loop of `main`
(lines 219-232 of `src/project.py`) is embedded as `upsert` below.
-/

namespace NameExtractor

/-- Key of a ledger entry: the pair `(filename, name)` built at line 222 of
`src/project.py`. -/
abbrev Key := String × String

/-- The in-memory ledger: the `OrderedDict` `od`, embedded as an association
list in insertion order (oldest first, most recent last). -/
abbrev Ledger := List (Key × List String)

/-- Dictionary lookup `od[key]` / membership `key in od`: the value attached
to the first (under uniqueness, the only) entry carrying `k`. -/
def lookup : Ledger → Key → Option (List String)
  | [], _ => none
  | (k', v) :: rest, k => if k' = k then some v else lookup rest k

/-- The keys of the ledger, in sequence order. -/
def keysOf (od : Ledger) : List Key := od.map Prod.fst

/-- Invariant U1 of the spec: no two entries of the ledger share a key. -/
def U1 (od : Ledger) : Prop := (keysOf od).Nodup

instance (od : Ledger) : Decidable (U1 od) := by
  unfold U1; infer_instance

/-- Merge of line 225 of `src/project.py`:
`merged = list(set(od[key]).union(interests))`.  The Python expression
produces a duplicate-free list whose elements are exactly the union of the
two lists' elements, in an order the language does not pin down (hash
order).  We embed it as the deduplicated concatenation, which has the same
element set (`toFinset`) and the same duplicate-freeness (`Nodup`); every
property proved about the merge is stated at that level. -/
def mergeInterests (old incoming : List String) : List String :=
  (old ++ incoming).dedup

/-- The upsert of lines 223-232 of `src/project.py`: if `key in od`, merge
the interests, `del od[key]` and re-insert at the end; otherwise append the
incoming interests unchanged. -/
def upsert (od : Ledger) (k : Key) (incoming : List String) : Ledger :=
  match lookup od k with
  | some old => od.filter (fun e => e.1 ≠ k) ++ [(k, mergeInterests old incoming)]
  | none => od ++ [(k, incoming)]

/-- A batch of upserts applied in order (the doubly nested loop of `main`
flattened into the sequence of extracted facts). -/
def applyAll (od : Ledger) (ops : List (Key × List String)) : Ledger :=
  ops.foldl (fun o p => upsert o p.1 p.2) od

/-- `OrderedDict.__setitem__`: `od[key] = v` updates the value in place when
the key is present (keeping its position) and appends otherwise.  Used by
`load_csv_into_ordereddict` (line 153 of `src/project.py`). -/
def odSet : Ledger → Key → List String → Ledger
  | [], k, v => [(k, v)]
  | (k', v') :: rest, k, v =>
      if k' = k then (k', v) :: rest else (k', v') :: odSet rest k v

/-- Whitespace as stripped by Python `str.strip()` (the ASCII part:
space, tab, newline, carriage return, vertical tab, form feed; the
additional Unicode space code points strip the same way and are not
distinguished by anything in this development). -/
def isStripWs (c : Char) : Bool :=
  c = ' ' || c = '\t' || c = '\n' || c = '\x0d' || c = '\x0b' || c = '\x0c'

/-- Drop leading whitespace characters. -/
def dropWs : List Char → List Char
  | [] => []
  | c :: r => if isStripWs c then dropWs r else c :: r

/-- Python `str.strip()`: surrounding whitespace removed from both ends. -/
def pyStrip (s : String) : String :=
  String.mk ((dropWs (dropWs s.data).reverse).reverse)

/-- One iteration of the per-person loop of `main` (lines 219-232 of
`src/project.py`): `name = person.get("name", "").strip()`,
`interests = person.get("interests", [])`, then the upsert under
`(basename, name)`.  The two `Option` arguments model the `.get` defaults
for a JSON object that may lack either field. -/
def process_person (od : Ledger) (basename : String)
    (pname : Option String) (pinterests : Option (List String)) : Ledger :=
  upsert od (basename, pyStrip (pname.getD "")) (pinterests.getD [])

/-! ### The persisted `interests` field: `json.dumps` / `json.loads`

`write_ordereddict_to_csv` stores each interest list as
`json.dumps(interests, ensure_ascii=False)` and `load_csv_into_ordereddict`
reads it back with `json.loads`, falling back to `[]` on any parse error.
We embed the two library calls for the JSON fragment actually used — arrays
of strings — at the character level: the encoder reproduces `json.dumps`'s
output exactly (default `", "` separator, `\"`, `\\`, `\b`, `\f`, `\n`,
`\r`, `\t` short escapes, `\u00xx` for the remaining control characters,
all other characters emitted raw), and the parser is a character automaton
for the strict-mode JSON string-array grammar accepted by `json.loads`
(surrounding whitespace, the standard escapes including `\uXXXX` and `\/`,
raw control characters rejected).  Lone surrogate escapes, which Lean's
`Char` cannot represent, are mapped through `Char.ofNat`'s fallback; they
occur neither in encoder output nor in any input considered here. -/

/-- Hexadecimal digit used by `json.dumps`'s `\u00xx` escapes (lowercase). -/
def hexDigitChar (n : Nat) : Char :=
  if n < 10 then Char.ofNat (48 + n) else Char.ofNat (87 + n)

/-- Value of a hexadecimal digit, upper or lower case, as read by
`json.loads` in `\uXXXX` escapes. -/
def hexVal (c : Char) : Option Nat :=
  if '0' ≤ c ∧ c ≤ '9' then some (c.toNat - 48)
  else if 'a' ≤ c ∧ c ≤ 'f' then some (c.toNat - 87)
  else if 'A' ≤ c ∧ c ≤ 'F' then some (c.toNat - 55)
  else none

/-- The escape `json.dumps` (with `ensure_ascii=False`) applies to one
character of a string. -/
def escapeChar (c : Char) : List Char :=
  if c = '"' then ['\\', '"']
  else if c = '\\' then ['\\', '\\']
  else if c = '\x08' then ['\\', 'b']
  else if c = '\x0c' then ['\\', 'f']
  else if c = '\n' then ['\\', 'n']
  else if c = '\x0d' then ['\\', 'r']
  else if c = '\t' then ['\\', 't']
  else if c.toNat < 32 then
    ['\\', 'u', '0', '0', hexDigitChar (c.toNat / 16), hexDigitChar (c.toNat % 16)]
  else [c]

/-- Escape every character of a string body. -/
def escapeList : List Char → List Char
  | [] => []
  | c :: r => escapeChar c ++ escapeList r

/-- A JSON string literal as `json.dumps` emits it. -/
def encodeJsonString (s : List Char) : List Char :=
  '"' :: (escapeList s ++ ['"'])

/-- Elements after the first, each preceded by the default `", "`
separator of `json.dumps`. -/
def encodeElemsTail : List (List Char) → List Char
  | [] => []
  | s :: rest => ',' :: ' ' :: (encodeJsonString s ++ encodeElemsTail rest)

/-- A JSON array of strings as `json.dumps` emits it. -/
def encodeArr : List (List Char) → List Char
  | [] => ['[', ']']
  | s :: rest => '[' :: (encodeJsonString s ++ encodeElemsTail rest ++ [']'])

/-- `json.dumps(interests, ensure_ascii=False)` for a list of strings. -/
def jsonDumpsStrList (l : List String) : String :=
  String.mk (encodeArr (l.map String.data))

/-- State of the `json.loads` character automaton for string arrays. -/
inductive PState where
  | start
  | afterOpen
  | inStr (acc : List (List Char)) (cur : List Char)
  | strEsc (acc : List (List Char)) (cur : List Char)
  | strU (acc : List (List Char)) (cur : List Char) (need val : Nat)
  | afterStr (acc : List (List Char))
  | afterComma (acc : List (List Char))
  | afterClose (acc : List (List Char))
deriving DecidableEq

/-- JSON insignificant whitespace. -/
def isJsonWs (c : Char) : Bool :=
  c = ' ' || c = '\t' || c = '\n' || c = '\x0d'

/-- One step of the `json.loads` automaton. -/
def pStep : PState → Char → Option PState
  | .start, c =>
      if isJsonWs c then some .start
      else if c = '[' then some .afterOpen
      else none
  | .afterOpen, c =>
      if isJsonWs c then some .afterOpen
      else if c = ']' then some (.afterClose [])
      else if c = '"' then some (.inStr [] [])
      else none
  | .inStr acc cur, c =>
      if c = '"' then some (.afterStr (acc ++ [cur]))
      else if c = '\\' then some (.strEsc acc cur)
      else if c.toNat < 32 then none
      else some (.inStr acc (cur ++ [c]))
  | .strEsc acc cur, c =>
      if c = '"' then some (.inStr acc (cur ++ ['"']))
      else if c = '\\' then some (.inStr acc (cur ++ ['\\']))
      else if c = '/' then some (.inStr acc (cur ++ ['/']))
      else if c = 'b' then some (.inStr acc (cur ++ ['\x08']))
      else if c = 'f' then some (.inStr acc (cur ++ ['\x0c']))
      else if c = 'n' then some (.inStr acc (cur ++ ['\n']))
      else if c = 'r' then some (.inStr acc (cur ++ ['\x0d']))
      else if c = 't' then some (.inStr acc (cur ++ ['\t']))
      else if c = 'u' then some (.strU acc cur 4 0)
      else none
  | .strU acc cur need val, c =>
      match hexVal c with
      | some d =>
          if need = 1 then some (.inStr acc (cur ++ [Char.ofNat (val * 16 + d)]))
          else some (.strU acc cur (need - 1) (val * 16 + d))
      | none => none
  | .afterStr acc, c =>
      if isJsonWs c then some (.afterStr acc)
      else if c = ',' then some (.afterComma acc)
      else if c = ']' then some (.afterClose acc)
      else none
  | .afterComma acc, c =>
      if isJsonWs c then some (.afterComma acc)
      else if c = '"' then some (.inStr acc [])
      else none
  | .afterClose acc, c =>
      if isJsonWs c then some (.afterClose acc) else none

/-- Run the automaton over a character list. -/
def stepMany : PState → List Char → Option PState
  | st, [] => some st
  | st, c :: r =>
      match pStep st c with
      | some st' => stepMany st' r
      | none => none

/-- Accept only in the closed state (the whole input must be one array). -/
def pFinish : PState → Option (List (List Char))
  | .afterClose acc => some acc
  | _ => none

/-- `json.loads` restricted to arrays of strings: `some` elements on
success, `none` on anything `json.loads` would raise on (or on a JSON value
that is not an array of strings, which line 150 of `src/project.py` would
store as-is; no such value is produced by `write_ordereddict_to_csv`). -/
def jsonLoadsStrList (s : String) : Option (List String) :=
  ((stepMany .start s.data).bind pFinish).map (fun l => l.map String.mk)

/-! ### Persistence: `load_csv_into_ordereddict` / `write_ordereddict_to_csv`

The CSV file is embedded as its list of data rows (what `csv.DictReader`
yields and `csv.DictWriter.writerow` consumes); the CSV quoting layer is a
bijection between rows and file bytes and is not re-modelled. -/

/-- One data row of the persisted CSV, fields `filename`, `name`,
`interests` (the latter still JSON-encoded text). -/
structure Row where
  filename : String
  name : String
  interests : String
deriving DecidableEq

/-- The ledger key a row carries. -/
def rowKey (r : Row) : Key := (r.filename, r.name)

/-- Lines 149-152 of `src/project.py`: `json.loads(row["interests"])` with
the bare `except` degrading any parse failure to `[]`. -/
def parseInterests (s : String) : List String :=
  (jsonLoadsStrList s).getD []

/-- `load_csv_into_ordereddict` (lines 137-154 of `src/project.py`): fold
the rows in file order into a fresh `OrderedDict` via `od[key] = interests`. -/
def load_csv_into_ordereddict (rows : List Row) : Ledger :=
  rows.foldl (fun od r => odSet od (rowKey r) (parseInterests r.interests)) []

/-- `write_ordereddict_to_csv` (lines 157-171 of `src/project.py`): one row
per entry in current order, `interests` re-encoded with `json.dumps`. -/
def write_ordereddict_to_csv (od : Ledger) : List Row :=
  od.map (fun e => ⟨e.1.1, e.1.2, jsonDumpsStrList e.2⟩)

/-! ### Basic lemmas about `lookup`, `keysOf` and `upsert` -/

theorem keysOf_nil : keysOf [] = [] := rfl

theorem keysOf_cons (e : Key × List String) (od : Ledger) :
    keysOf (e :: od) = e.1 :: keysOf od := rfl

theorem keysOf_append (od₁ od₂ : Ledger) :
    keysOf (od₁ ++ od₂) = keysOf od₁ ++ keysOf od₂ :=
  List.map_append _ _ _

theorem lookup_eq_none_iff (od : Ledger) (k : Key) :
    lookup od k = none ↔ k ∉ keysOf od := by
  induction od with
  | nil => simp [lookup, keysOf]
  | cons e rest ih =>
      obtain ⟨k', v⟩ := e
      by_cases h : k' = k
      · subst h; simp [lookup, keysOf]
      · simp [lookup, h, keysOf, ih, Ne.symm h]

theorem lookup_append (od₁ od₂ : Ledger) (k : Key) :
    lookup (od₁ ++ od₂) k = (lookup od₁ k).or (lookup od₂ k) := by
  induction od₁ with
  | nil => simp [lookup]
  | cons e rest ih =>
      obtain ⟨k', v⟩ := e
      by_cases h : k' = k
      · subst h; simp [lookup]
      · simpa [lookup, h] using ih

theorem lookup_filter_ne (od : Ledger) (j k : Key) (h : k ≠ j) :
    lookup (od.filter (fun e => e.1 ≠ j)) k = lookup od k := by
  induction od with
  | nil => simp [lookup]
  | cons e rest ih =>
      obtain ⟨k', v⟩ := e
      simp only [ne_eq, decide_not] at ih ⊢
      by_cases hj : k' = j
      · subst hj
        have hk : k' ≠ k := fun hh => h hh.symm
        simp [lookup, hk, ih]
      · by_cases hk : k' = k
        · subst hk; simp [List.filter_cons, hj, lookup]
        · simp [List.filter_cons, hj, lookup, hk, ih]

theorem filter_eq_self_of_not_mem (od : Ledger) (k : Key)
    (h : k ∉ keysOf od) : od.filter (fun e => e.1 ≠ k) = od := by
  induction od with
  | nil => rfl
  | cons e rest ih =>
      obtain ⟨k', v⟩ := e
      simp only [keysOf, List.map_cons, List.mem_cons] at h
      push_neg at h
      have ih' := ih (by simpa [keysOf] using h.2)
      simp only [ne_eq, decide_not] at ih' ⊢
      have hne : ¬k' = k := fun hh => h.1 hh.symm
      simp [List.filter_cons, hne, ih']

theorem keysOf_filter (od : Ledger) (k : Key) :
    keysOf (od.filter (fun e => e.1 ≠ k)) = (keysOf od).filter (fun x => x ≠ k) := by
  induction od with
  | nil => rfl
  | cons e rest ih =>
      obtain ⟨k', v⟩ := e
      simp only [ne_eq, decide_not, keysOf] at ih ⊢
      by_cases h : k' = k
      · subst h; simp [List.filter_cons, ih]
      · simp [List.filter_cons, h, ih]

theorem lookup_of_no_key (od : Ledger) (k : Key) (v : List String)
    (h : ∀ e ∈ od, e.1 ≠ k) : lookup (od ++ [(k, v)]) k = some v := by
  induction od with
  | nil => simp [lookup]
  | cons e rest ih =>
      obtain ⟨k', v'⟩ := e
      have hk : k' ≠ k := h (k', v') (List.mem_cons_self _ _)
      simp only [List.cons_append, lookup, hk, if_false]
      exact ih fun e he => h e (List.mem_cons_of_mem _ he)

theorem lookup_upsert_self (od : Ledger) (k : Key) (v : List String) :
    lookup (upsert od k v) k =
      some (match lookup od k with
            | some old => mergeInterests old v
            | none => v) := by
  unfold upsert
  cases hod : lookup od k with
  | none =>
      rw [lookup_append, hod]
      simp [lookup]
  | some old =>
      refine lookup_of_no_key _ _ _ ?_
      intro e he
      have := List.of_mem_filter he
      simpa using this

theorem lookup_upsert_ne (od : Ledger) (j k : Key) (v : List String)
    (h : k ≠ j) : lookup (upsert od j v) k = lookup od k := by
  unfold upsert
  cases hod : lookup od j with
  | none =>
      rw [lookup_append]
      cases hk : lookup od k with
      | none => simp [lookup, Ne.symm h]
      | some w => simp
  | some old =>
      rw [lookup_append, lookup_filter_ne od j k h]
      cases hk : lookup od k with
      | none => simp [lookup, Ne.symm h]
      | some w => simp

theorem upsert_getLast (od : Ledger) (k : Key) (v : List String) :
    ∃ m, (upsert od k v).getLast? = some (k, m) := by
  unfold upsert
  cases lookup od k with
  | none => exact ⟨v, List.getLast?_concat _⟩
  | some old => exact ⟨mergeInterests old v, List.getLast?_concat _⟩

theorem mem_keys_iff_lookup (od : Ledger) (k : Key) :
    k ∈ keysOf od ↔ lookup od k ≠ none := by
  rw [Ne, lookup_eq_none_iff]; tauto

theorem mem_keys_upsert_self (od : Ledger) (k : Key) (v : List String) :
    k ∈ keysOf (upsert od k v) := by
  unfold upsert
  cases lookup od k with
  | none => simp [keysOf_append, keysOf]
  | some old => simp [keysOf_append, keysOf]

theorem mem_keys_upsert_mono (od : Ledger) (j k : Key) (v : List String)
    (h : j ∈ keysOf od) : j ∈ keysOf (upsert od k v) := by
  by_cases hk : j = k
  · subst hk; exact mem_keys_upsert_self od j v
  · rw [mem_keys_iff_lookup] at h ⊢
    rwa [lookup_upsert_ne od k j v hk]

theorem keysOf_upsert_absent (od : Ledger) (k : Key) (v : List String)
    (h : lookup od k = none) : keysOf (upsert od k v) = keysOf od ++ [k] := by
  unfold upsert
  rw [h, keysOf_append]
  rfl

theorem keysOf_upsert_present (od : Ledger) (k : Key) (v old : List String)
    (h : lookup od k = some old) :
    keysOf (upsert od k v) = (keysOf od).filter (fun x => x ≠ k) ++ [k] := by
  unfold upsert
  rw [h]
  simp only [keysOf_append, keysOf_filter]
  rfl

theorem U1_upsert (od : Ledger) (k : Key) (v : List String) (h : U1 od) :
    U1 (upsert od k v) := by
  unfold U1
  cases hod : lookup od k with
  | none =>
      rw [keysOf_upsert_absent od k v hod]
      have hk : k ∉ keysOf od := (lookup_eq_none_iff od k).1 hod
      refine List.nodup_append.2 ⟨h, List.nodup_singleton k, ?_⟩
      intro a ha hb
      rw [List.mem_singleton] at hb
      exact hk (hb ▸ ha)
  | some old =>
      rw [keysOf_upsert_present od k v old hod]
      have h1 : ((keysOf od).filter (fun x => x ≠ k)).Nodup := h.filter _
      refine List.nodup_append.2 ⟨h1, List.nodup_singleton k, ?_⟩
      intro a ha hb
      rw [List.mem_singleton] at hb
      subst hb
      have := List.of_mem_filter ha
      simp at this

theorem length_upsert_absent (od : Ledger) (k : Key) (v : List String)
    (h : lookup od k = none) : (upsert od k v).length = od.length + 1 := by
  simp [upsert, h]

theorem length_filter_of_lookup (od : Ledger) (k : Key) (old : List String)
    (h : U1 od) (hl : lookup od k = some old) :
    (od.filter (fun e => e.1 ≠ k)).length + 1 = od.length := by
  induction od with
  | nil => simp [lookup] at hl
  | cons e rest ih =>
      obtain ⟨k', v'⟩ := e
      have hU : U1 rest := by
        have h' := h
        simp only [U1, keysOf, List.map_cons, List.nodup_cons] at h'
        exact h'.2
      by_cases hk : k' = k
      · subst hk
        have hmem : k' ∉ keysOf rest := by
          have h' := h
          simp only [U1, keysOf, List.map_cons, List.nodup_cons] at h'
          exact h'.1
        rw [List.filter_cons_of_neg (by simp)]
        rw [filter_eq_self_of_not_mem rest k' hmem]
        simp
      · have hl' : lookup rest k = some old := by
          simpa [lookup, hk] using hl
        rw [List.filter_cons_of_pos (by simp [hk])]
        have := ih hU hl'
        simp only [List.length_cons]
        omega


theorem length_upsert_present (od : Ledger) (k : Key) (v old : List String)
    (h : U1 od) (hl : lookup od k = some old) :
    (upsert od k v).length = od.length := by
  unfold upsert
  rw [hl, List.length_append]
  simpa using length_filter_of_lookup od k old h hl

/-- Frame of `upsert` on the other entries: the sub-list of entries whose
key differs from `k` is untouched. -/
theorem filter_upsert_frame (od : Ledger) (k : Key) (v : List String) :
    (upsert od k v).filter (fun e => e.1 ≠ k) = od.filter (fun e => e.1 ≠ k) := by
  unfold upsert
  cases lookup od k with
  | none =>
      rw [List.filter_append]
      simp [List.filter_cons]
  | some old =>
      rw [List.filter_append]
      have hself : (od.filter (fun e => e.1 ≠ k)).filter (fun e => e.1 ≠ k)
          = od.filter (fun e => e.1 ≠ k) := by
        rw [List.filter_eq_self]
        intro e he
        exact (List.mem_filter.1 he).2
      simp only [hself, List.filter_cons]
      simp

theorem lookup_applyAll_frame (od : Ledger) (ops : List (Key × List String))
    (k : Key) (h : ∀ p ∈ ops, p.1 ≠ k) :
    lookup (applyAll od ops) k = lookup od k := by
  induction ops generalizing od with
  | nil => rfl
  | cons p rest ih =>
      obtain ⟨j, v⟩ := p
      have hj : j ≠ k := h (j, v) (List.mem_cons_self _ _)
      have : applyAll od ((j, v) :: rest) = applyAll (upsert od j v) rest := rfl
      rw [this, ih _ fun q hq => h q (List.mem_cons_of_mem _ hq),
        lookup_upsert_ne od j k v (Ne.symm hj)]

theorem applyAll_append (od : Ledger) (ops₁ ops₂ : List (Key × List String)) :
    applyAll od (ops₁ ++ ops₂) = applyAll (applyAll od ops₁) ops₂ :=
  List.foldl_append _ _ _ _

theorem applyAll_cons (od : Ledger) (p : Key × List String)
    (ops : List (Key × List String)) :
    applyAll od (p :: ops) = applyAll (upsert od p.1 p.2) ops := rfl

/-- An upsert of a key other than `J` and `K` preserves "J appears before
K" in the key sequence. -/
theorem sublist_keys_upsert_other (od : Ledger) (J K k' : Key) (v : List String)
    (hJ : k' ≠ J) (hK : k' ≠ K) (h : [J, K].Sublist (keysOf od)) :
    [J, K].Sublist (keysOf (upsert od k' v)) := by
  cases hod : lookup od k' with
  | none =>
      rw [keysOf_upsert_absent od k' v hod]
      exact h.trans (List.sublist_append_left _ _)
  | some old =>
      rw [keysOf_upsert_present od k' v old hod]
      have hfilter : [J, K].filter (fun x => x ≠ k') = [J, K] := by
        simp [List.filter_cons, Ne.symm hJ, Ne.symm hK]
      have : [J, K].Sublist ((keysOf od).filter (fun x => x ≠ k')) := by
        rw [← hfilter]; exact h.filter _
      exact this.trans (List.sublist_append_left _ _)

/-- Immediately after upserting `K`, any other key already present appears
before `K`. -/
theorem sublist_keys_upsert_self (od : Ledger) (J K : Key) (v : List String)
    (hJK : J ≠ K) (hJ : J ∈ keysOf od) :
    [J, K].Sublist (keysOf (upsert od K v)) := by
  cases hod : lookup od K with
  | none =>
      rw [keysOf_upsert_absent od K v hod]
      have h1 : [J].Sublist (keysOf od) := List.singleton_sublist.2 hJ
      simpa using h1.append (List.Sublist.refl [K])
  | some old =>
      rw [keysOf_upsert_present od K v old hod]
      have hJf : J ∈ (keysOf od).filter (fun x => x ≠ K) :=
        List.mem_filter.2 ⟨hJ, by simp [hJK]⟩
      have h1 : [J].Sublist ((keysOf od).filter (fun x => x ≠ K)) :=
        List.singleton_sublist.2 hJf
      simpa using h1.append (List.Sublist.refl [K])

theorem sublist_keys_applyAll_other (J K : Key)
    (ops : List (Key × List String)) :
    ∀ od : Ledger, (∀ p ∈ ops, p.1 ≠ J ∧ p.1 ≠ K) →
      [J, K].Sublist (keysOf od) → [J, K].Sublist (keysOf (applyAll od ops)) := by
  induction ops with
  | nil => intro od _ h; exact h
  | cons p rest ih =>
      intro od hops h
      obtain ⟨k', v⟩ := p
      have hp := hops (k', v) (List.mem_cons_self _ _)
      rw [applyAll_cons]
      exact ih _ (fun q hq => hops q (List.mem_cons_of_mem _ hq))
        (sublist_keys_upsert_other od J K k' v hp.1 hp.2 h)

/-- If a batch never touches `J` but touches `K`, then afterwards `J`
appears (strictly) before `K` in the key sequence. -/
theorem sublist_keys_of_later_upsert (J K : Key) (hJK : J ≠ K)
    (ops : List (Key × List String)) :
    ∀ od : Ledger, J ∈ keysOf od → (∀ p ∈ ops, p.1 ≠ J) →
      (∃ v, (K, v) ∈ ops) → [J, K].Sublist (keysOf (applyAll od ops)) := by
  induction ops with
  | nil =>
      intro od _ _ hK
      obtain ⟨v, hv⟩ := hK
      exact absurd hv (List.not_mem_nil _)
  | cons p rest ih =>
      intro od hJ hops hK
      obtain ⟨k', v'⟩ := p
      rw [applyAll_cons]
      by_cases hrest : ∃ v, (K, v) ∈ rest
      · exact ih _ (mem_keys_upsert_mono od J k' v' hJ)
          (fun q hq => hops q (List.mem_cons_of_mem _ hq)) hrest
      · obtain ⟨v, hv⟩ := hK
        rcases List.mem_cons.1 hv with heq | hmem
        · have hkK : k' = K := by
            have := congrArg Prod.fst heq
            exact this.symm
          subst hkK
          refine sublist_keys_applyAll_other J k' rest _ ?_ ?_
          · intro q hq
            refine ⟨hops q (List.mem_cons_of_mem _ hq), ?_⟩
            intro hqK
            exact hrest ⟨q.2, by rw [← hqK]; exact hq⟩
          · exact sublist_keys_upsert_self od J k' v' hJK hJ
        · exact absurd hmem (fun hh => hrest ⟨v, hh⟩)

/-! ### Lemmas about `OrderedDict.__setitem__` and the CSV load -/

theorem lookup_odSet (od : Ledger) (k k' : Key) (v : List String) :
    lookup (odSet od k v) k' = if k = k' then some v else lookup od k' := by
  induction od with
  | nil =>
      by_cases h : k = k'
      · subst h; simp [odSet, lookup]
      · simp [odSet, lookup, h, fun hh : k' = k => h hh.symm]
  | cons e rest ih =>
      obtain ⟨k₀, v₀⟩ := e
      by_cases h0 : k₀ = k
      · subst h0
        by_cases hk' : k₀ = k'
        · subst hk'; simp [odSet, lookup]
        · simp [odSet, lookup, hk', fun hh : k₀ = k' => hk' hh]
      · by_cases hk' : k₀ = k'
        · subst hk'
          have hkk : ¬k = k₀ := fun hh => h0 hh.symm
          simp [odSet, lookup, h0, hkk]
        · simp [odSet, lookup, h0, hk', ih]

theorem keysOf_odSet (od : Ledger) (k : Key) (v : List String) :
    keysOf (odSet od k v) =
      if k ∈ keysOf od then keysOf od else keysOf od ++ [k] := by
  induction od with
  | nil => simp [odSet, keysOf]
  | cons e rest ih =>
      obtain ⟨k₀, v₀⟩ := e
      by_cases h0 : k₀ = k
      · subst h0; simp [odSet, keysOf]
      · have hne : ¬k = k₀ := fun hh => h0 hh.symm
        simp only [keysOf] at ih
        by_cases hmem : k ∈ keysOf rest
        · simp only [keysOf] at hmem
          simp [odSet, h0, keysOf, ih, hmem, hne]
        · simp only [keysOf] at hmem
          simp [odSet, h0, keysOf, ih, hmem, hne]

theorem U1_odSet (od : Ledger) (k : Key) (v : List String) (h : U1 od) :
    U1 (odSet od k v) := by
  unfold U1
  rw [keysOf_odSet]
  by_cases hmem : k ∈ keysOf od
  · simpa [hmem] using h
  · rw [if_neg hmem]
    refine List.nodup_append.2 ⟨h, List.nodup_singleton k, ?_⟩
    intro a ha hb
    rw [List.mem_singleton] at hb
    exact hmem (hb ▸ ha)

theorem odSet_absent (od : Ledger) (k : Key) (v : List String)
    (h : k ∉ keysOf od) : odSet od k v = od ++ [(k, v)] := by
  induction od with
  | nil => rfl
  | cons e rest ih =>
      obtain ⟨k₀, v₀⟩ := e
      simp only [keysOf, List.map_cons, List.mem_cons] at h
      push_neg at h
      have h0 : ¬k₀ = k := fun hh => h.1 hh.symm
      simp [odSet, h0, ih (by simpa [keysOf] using h.2)]

/-- `load_csv_into_ordereddict` with an arbitrary starting dictionary (the
generalisation needed to reason about the fold). -/
def loadFrom (od : Ledger) (rows : List Row) : Ledger :=
  rows.foldl (fun o r => odSet o (rowKey r) (parseInterests r.interests)) od

theorem load_eq_loadFrom (rows : List Row) :
    load_csv_into_ordereddict rows = loadFrom [] rows := rfl

theorem loadFrom_cons (od : Ledger) (r : Row) (rows : List Row) :
    loadFrom od (r :: rows)
      = loadFrom (odSet od (rowKey r) (parseInterests r.interests)) rows := rfl

theorem U1_loadFrom (rows : List Row) :
    ∀ od : Ledger, U1 od → U1 (loadFrom od rows) := by
  induction rows with
  | nil => intro od h; exact h
  | cons r rows ih =>
      intro od h
      rw [loadFrom_cons]
      exact ih _ (U1_odSet od _ _ h)

theorem lookup_loadFrom (rows : List Row) :
    ∀ (od : Ledger) (k : Key),
      lookup (loadFrom od rows) k =
        match rows.reverse.find? (fun r => rowKey r = k) with
        | some r => some (parseInterests r.interests)
        | none => lookup od k := by
  induction rows with
  | nil => intro od k; rfl
  | cons r rows ih =>
      intro od k
      rw [loadFrom_cons, ih]
      rw [List.reverse_cons, List.find?_append]
      cases hfind : rows.reverse.find? (fun r => rowKey r = k) with
      | some r' => simp
      | none =>
          simp only [Option.none_orElse]
          by_cases hk : rowKey r = k
          · simp [List.find?, hk, lookup_odSet]
          · have : ¬rowKey r = k := hk
            simp [List.find?, this, lookup_odSet, fun hh : rowKey r = k => hk hh]

theorem loadFrom_of_fresh_keys (rows : List Row) :
    ∀ od : Ledger, (∀ r ∈ rows, rowKey r ∉ keysOf od) →
      (rows.map rowKey).Nodup →
      loadFrom od rows
        = od ++ rows.map (fun r => (rowKey r, parseInterests r.interests)) := by
  induction rows with
  | nil => intro od _ _; simp [loadFrom]
  | cons r rows ih =>
      intro od hdisj hnd
      rw [loadFrom_cons,
        odSet_absent od _ _ (hdisj r (List.mem_cons_self _ _))]
      rw [List.map_cons, List.nodup_cons] at hnd
      rw [ih _ ?_ hnd.2]
      · simp
      · intro r' hr'
        rw [keysOf_append]
        intro hmem
        rcases List.mem_append.1 hmem with hmem | hmem
        · exact hdisj r' (List.mem_cons_of_mem _ hr') hmem
        · simp only [keysOf, List.map_cons, List.map_nil, List.mem_singleton] at hmem
          exact hnd.1 (hmem ▸ List.mem_map_of_mem rowKey hr')

/-! ### Round-trip of the JSON encoding -/

theorem stepMany_append (xs ys : List Char) :
    ∀ st : PState, stepMany st (xs ++ ys)
      = (stepMany st xs).bind (fun st' => stepMany st' ys) := by
  induction xs with
  | nil => intro st; rfl
  | cons c xs ih =>
      intro st
      simp only [List.cons_append, stepMany]
      cases pStep st c with
      | some st' => exact ih st'
      | none => rfl

theorem hexVal_hexDigitChar (n : Nat) (h : n < 16) :
    hexVal (hexDigitChar n) = some n := by
  interval_cases n <;> rfl

theorem stepMany_escapeChar (acc : List (List Char)) (cur : List Char)
    (c : Char) :
    stepMany (.inStr acc cur) (escapeChar c) = some (.inStr acc (cur ++ [c])) := by
  unfold escapeChar
  by_cases h1 : c = '"'
  · subst h1; rfl
  by_cases h2 : c = '\\'
  · subst h2; simp [h1, stepMany, pStep, isJsonWs]
  by_cases h3 : c = '\x08'
  · subst h3; simp [h1, h2, stepMany, pStep, isJsonWs]
  by_cases h4 : c = '\x0c'
  · subst h4; simp [h1, h2, h3, stepMany, pStep, isJsonWs]
  by_cases h5 : c = '\n'
  · subst h5; simp [h1, h2, h3, h4, stepMany, pStep, isJsonWs]
  by_cases h6 : c = '\x0d'
  · subst h6; simp [h1, h2, h3, h4, h5, stepMany, pStep, isJsonWs]
  by_cases h7 : c = '\t'
  · subst h7; simp [h1, h2, h3, h4, h5, h6, stepMany, pStep, isJsonWs]
  by_cases h8 : c.toNat < 32
  · rw [if_neg h1, if_neg h2, if_neg h3, if_neg h4, if_neg h5, if_neg h6,
      if_neg h7, if_pos h8]
    have hdiv : c.toNat / 16 < 16 := by omega
    have hmod : c.toNat % 16 < 16 := Nat.mod_lt _ (by omega)
    have e1 : ∀ r, stepMany (.inStr acc cur) ('\\' :: 'u' :: '0' :: '0' :: r)
        = stepMany (.strU acc cur 2 0) r := fun r => rfl
    have e2 : pStep (.strU acc cur 2 0) (hexDigitChar (c.toNat / 16))
        = some (.strU acc cur 1 (c.toNat / 16)) := by
      simp [pStep, hexVal_hexDigitChar _ hdiv]
    have e3 : pStep (.strU acc cur 1 (c.toNat / 16)) (hexDigitChar (c.toNat % 16))
        = some (.inStr acc (cur ++ [Char.ofNat (c.toNat / 16 * 16 + c.toNat % 16)])) := by
      simp [pStep, hexVal_hexDigitChar _ hmod]
    have e4 : c.toNat / 16 * 16 + c.toNat % 16 = c.toNat := by omega
    rw [e1]
    simp only [stepMany, e2, e3, e4, Char.ofNat_toNat]
  · rw [if_neg h1, if_neg h2, if_neg h3, if_neg h4, if_neg h5, if_neg h6,
      if_neg h7, if_neg h8]
    simp [stepMany, pStep, h1, h2, h8]

theorem stepMany_escapeList (s : List Char) :
    ∀ acc cur, stepMany (.inStr acc cur) (escapeList s ++ ['"'])
      = some (.afterStr (acc ++ [cur ++ s])) := by
  induction s with
  | nil => intro acc cur; simp [escapeList, stepMany, pStep]
  | cons c s ih =>
      intro acc cur
      rw [escapeList, List.append_assoc, stepMany_append,
        stepMany_escapeChar, Option.some_bind, ih]
      simp

theorem stepMany_encodeElemsTail (ss : List (List Char)) :
    ∀ acc, stepMany (.afterStr acc) (encodeElemsTail ss ++ [']'])
      = some (.afterClose (acc ++ ss)) := by
  induction ss with
  | nil => intro acc; simp [encodeElemsTail, stepMany, pStep, isJsonWs]
  | cons s rest ih =>
      intro acc
      rw [encodeElemsTail]
      have hsplit :
          (',' :: ' ' :: (encodeJsonString s ++ encodeElemsTail rest)) ++ [']']
            = ',' :: ' ' :: '"' ::
                ((escapeList s ++ ['"']) ++ (encodeElemsTail rest ++ [']'])) := by
        simp [encodeJsonString]
      rw [hsplit]
      have e1 : ∀ r, stepMany (.afterStr acc) (',' :: ' ' :: '"' :: r)
          = stepMany (.inStr acc []) r := fun r => rfl
      rw [e1, stepMany_append, stepMany_escapeList, Option.some_bind, ih]
      simp

theorem stepMany_encodeArr (ss : List (List Char)) :
    stepMany .start (encodeArr ss) = some (.afterClose ss) := by
  cases ss with
  | nil => rfl
  | cons s rest =>
      rw [encodeArr]
      have hsplit :
          ('[' :: (encodeJsonString s ++ encodeElemsTail rest ++ [']']))
            = '[' :: '"' ::
                ((escapeList s ++ ['"']) ++ (encodeElemsTail rest ++ [']'])) := by
        simp [encodeJsonString]
      rw [hsplit]
      have e1 : ∀ r, stepMany .start ('[' :: '"' :: r)
          = stepMany (.inStr [] []) r := fun r => rfl
      rw [e1, stepMany_append, stepMany_escapeList, Option.some_bind,
        stepMany_encodeElemsTail]
      simp

/-- `json.loads(json.dumps(l))` returns `l` itself for every list of
strings: the persisted encoding of the `interests` field is lossless. -/
theorem jsonLoads_dumps (l : List String) :
    jsonLoadsStrList (jsonDumpsStrList l) = some l := by
  unfold jsonLoadsStrList jsonDumpsStrList
  have hdata : (String.mk (encodeArr (l.map String.data))).data
      = encodeArr (l.map String.data) := rfl
  rw [hdata, stepMany_encodeArr]
  have hmaps : List.map String.mk (List.map String.data l) = l := by
    rw [List.map_map]
    have hcomp : (String.mk ∘ String.data) = id := rfl
    rw [hcomp, List.map_id]
  simp only [Option.some_bind, pFinish, Option.map_some', hmaps]

/-! ### Element-set of the merge -/

theorem toFinset_dedup_list (l : List String) : l.dedup.toFinset = l.toFinset := by
  apply Finset.ext
  intro x
  simp [List.mem_toFinset, List.mem_dedup]

theorem toFinset_mergeInterests (a b : List String) :
    (mergeInterests a b).toFinset = a.toFinset ∪ b.toFinset := by
  unfold mergeInterests
  rw [toFinset_dedup_list, List.toFinset_append]

theorem load_write (od : Ledger) (h : U1 od) :
    load_csv_into_ordereddict (write_ordereddict_to_csv od) = od := by
  have hkeys : (write_ordereddict_to_csv od).map rowKey = keysOf od := by
    unfold write_ordereddict_to_csv keysOf
    rw [List.map_map]
    rfl
  have hnd : ((write_ordereddict_to_csv od).map rowKey).Nodup := by
    rw [hkeys]; exact h
  rw [load_eq_loadFrom,
    loadFrom_of_fresh_keys _ _ (by intro r _ hm; simp [keysOf] at hm) hnd,
    List.nil_append]
  unfold write_ordereddict_to_csv
  rw [List.map_map]
  have hpt : ∀ e ∈ od,
      ((fun r => (rowKey r, parseInterests r.interests)) ∘
        (fun e : Key × List String =>
          (⟨e.1.1, e.1.2, jsonDumpsStrList e.2⟩ : Row))) e = id e := by
    intro e _
    show (rowKey ⟨e.1.1, e.1.2, jsonDumpsStrList e.2⟩,
      parseInterests (jsonDumpsStrList e.2)) = e
    have hp : parseInterests (jsonDumpsStrList e.2) = e.2 := by
      unfold parseInterests
      rw [jsonLoads_dumps]
      rfl
    rw [hp]
    rfl
  rw [List.map_congr_left hpt, List.map_id]

/-! ### The claims -/

/-- C1: for every ledger satisfying U1 and every `upsert(key, interests)`,
afterwards the entry for `key` is the last entry of the sequence, U1 still
holds, and the length grows by at most one — by exactly one when the key
was absent, by zero when it was present. -/
theorem claim_C1 (od : Ledger) (k : Key) (ints : List String) (h : U1 od) :
    (∃ v, (upsert od k ints).getLast? = some (k, v))
    ∧ U1 (upsert od k ints)
    ∧ (upsert od k ints).length ≤ od.length + 1
    ∧ (lookup od k = none → (upsert od k ints).length = od.length + 1)
    ∧ (lookup od k ≠ none → (upsert od k ints).length = od.length) := by
  refine ⟨upsert_getLast od k ints, U1_upsert od k ints h, ?_, ?_, ?_⟩
  · cases hod : lookup od k with
    | none => rw [length_upsert_absent od k ints hod]
    | some old =>
        have := length_upsert_present od k ints old h hod
        omega
  · intro hod
    exact length_upsert_absent od k ints hod
  · intro hod
    cases hod2 : lookup od k with
    | none => exact absurd hod2 hod
    | some old => exact length_upsert_present od k ints old h hod2

theorem claim_C1_wit :
    U1 (upsert [(("a.txt", "Alice"), ["chess"])] ("b.txt", "Bob") ["golf"])
    ∧ (upsert [(("a.txt", "Alice"), ["chess"])] ("b.txt", "Bob") ["golf"]).length
        = [(("a.txt", "Alice"), ["chess"])].length + 1 :=
  ⟨(claim_C1 [(("a.txt", "Alice"), ["chess"])] ("b.txt", "Bob") ["golf"]
      (by decide)).2.1,
    (claim_C1 [(("a.txt", "Alice"), ["chess"])] ("b.txt", "Bob") ["golf"]
      (by decide)).2.2.2.1 (by decide)⟩

/-- C2: upserting `K` with `A`, then — after interleaved upserts of other
keys — upserting `K` with `B`, leaves `K`'s stored interests equal, as a
set, to `A ∪ B`; the order of interests inside the incoming lists does not
affect the resulting set. -/
theorem claim_C2 (od : Ledger) (K : Key) (A B : List String)
    (mid : List (Key × List String)) (hK : lookup od K = none)
    (hmid : ∀ p ∈ mid, p.1 ≠ K) :
    ∃ l, lookup (upsert (applyAll (upsert od K A) mid) K B) K = some l
      ∧ l.toFinset = A.toFinset ∪ B.toFinset
      ∧ ∀ A' B' : List String,
          A'.toFinset = A.toFinset → B'.toFinset = B.toFinset →
          ∃ l', lookup (upsert (applyAll (upsert od K A') mid) K B') K = some l'
            ∧ l'.toFinset = l.toFinset := by
  have key : ∀ A₀ B₀ : List String,
      lookup (upsert (applyAll (upsert od K A₀) mid) K B₀) K
        = some (mergeInterests A₀ B₀) := by
    intro A₀ B₀
    have h1 : lookup (upsert od K A₀) K = some A₀ := by
      have := lookup_upsert_self od K A₀
      rw [hK] at this
      exact this
    have h2 : lookup (applyAll (upsert od K A₀) mid) K = some A₀ := by
      rw [lookup_applyAll_frame _ _ _ hmid, h1]
    have h3 := lookup_upsert_self (applyAll (upsert od K A₀) mid) K B₀
    rw [h2] at h3
    exact h3
  refine ⟨mergeInterests A B, key A B, toFinset_mergeInterests A B, ?_⟩
  intro A' B' hA hB
  refine ⟨mergeInterests A' B', key A' B', ?_⟩
  rw [toFinset_mergeInterests, toFinset_mergeInterests, hA, hB]

theorem claim_C2_wit :
    ∃ l, lookup (upsert (applyAll (upsert [] ("a.txt", "Alice") ["x"])
          [(("b.txt", "Bob"), ["g"])]) ("a.txt", "Alice") ["y"])
        ("a.txt", "Alice") = some l
      ∧ l.toFinset = (["x"] : List String).toFinset ∪ (["y"] : List String).toFinset :=
  (claim_C2 [] ("a.txt", "Alice") ["x"] ["y"] [(("b.txt", "Bob"), ["g"])]
      rfl (by decide)).imp fun _ h => ⟨h.1, h.2.1⟩

/-- C3: for every batch of upserts, at each intermediate point the most
recently upserted key is the last entry; and if `K`'s last upsert comes
after `J`'s last upsert (`J ≠ K`), then `K` appears after `J` in the final
key sequence. -/
theorem claim_C3 (od : Ledger) (ops : List (Key × List String)) :
    (∀ pre k v suf, ops = pre ++ (k, v) :: suf →
        ∃ ints, (applyAll od (pre ++ [(k, v)])).getLast? = some (k, ints))
    ∧ (∀ (J K : Key) (vJ : List String) (pre suf : List (Key × List String)),
        J ≠ K → ops = pre ++ (J, vJ) :: suf →
        (∀ p ∈ suf, p.1 ≠ J) → (∃ vK, (K, vK) ∈ suf) →
        [J, K].Sublist (keysOf (applyAll od ops))) := by
  constructor
  · intro pre k v suf _
    rw [applyAll_append]
    exact upsert_getLast _ k v
  · intro J K vJ pre suf hJK hops hsuf hK
    subst hops
    rw [applyAll_append, applyAll_cons]
    exact sublist_keys_of_later_upsert J K hJK suf _
      (mem_keys_upsert_self _ J vJ) hsuf hK

theorem claim_C3_wit :
    [(("a.txt", "J") : Key), (("a.txt", "K") : Key)].Sublist
      (keysOf (applyAll []
        [((("a.txt", "J") : Key), ["1"]), ((("a.txt", "K") : Key), ["2"])])) :=
  (claim_C3 [] [((("a.txt", "J") : Key), ["1"]), ((("a.txt", "K") : Key), ["2"])]).2
    ("a.txt", "J") ("a.txt", "K") ["1"] [] [((("a.txt", "K") : Key), ["2"])]
    (by decide) rfl (by decide) ⟨["2"], by decide⟩

/-- C4: the save → load → save round-trip is stable: re-saving the loaded
ledger reproduces the saved row sequence exactly, in content and order,
because `json.dumps` is a deterministic encoding that `json.loads` inverts
losslessly. -/
theorem claim_C4 (od : Ledger) (h : U1 od) :
    write_ordereddict_to_csv
        (load_csv_into_ordereddict (write_ordereddict_to_csv od))
      = write_ordereddict_to_csv od := by
  rw [load_write od h]

theorem claim_C4_wit :
    write_ordereddict_to_csv
        (load_csv_into_ordereddict (write_ordereddict_to_csv
          [(("a.txt", "Alice"), ["chess", "go"])]))
      = write_ordereddict_to_csv [(("a.txt", "Alice"), ["chess", "go"])] :=
  claim_C4 [(("a.txt", "Alice"), ["chess", "go"])] (by decide)

/-- C5: a single row whose `interests` field does not parse never aborts
the load: the whole row list is loaded, the bad row's interest set degrades
to `[]`, and every other row keeps its own key and parsed interests. -/
theorem claim_C5 (rows : List Row) (i : Nat) (ri : Row)
    (hnd : (rows.map rowKey).Nodup)
    (hi : rows[i]? = some ri)
    (hbad : jsonLoadsStrList ri.interests = none) :
    (load_csv_into_ordereddict rows).length = rows.length
    ∧ (load_csv_into_ordereddict rows)[i]? = some (rowKey ri, [])
    ∧ (∀ (j : Nat) (rj : Row), rows[j]? = some rj →
        (load_csv_into_ordereddict rows)[j]?
          = some (rowKey rj, parseInterests rj.interests)) := by
  have hload : load_csv_into_ordereddict rows
      = rows.map (fun r => (rowKey r, parseInterests r.interests)) := by
    rw [load_eq_loadFrom,
      loadFrom_of_fresh_keys rows [] (by intro r _ hm; simp [keysOf] at hm) hnd,
      List.nil_append]
  refine ⟨by rw [hload]; simp, ?_, ?_⟩
  · rw [hload, List.getElem?_map, hi]
    simp [parseInterests, hbad]
  · intro j rj hj
    rw [hload, List.getElem?_map, hj]
    rfl

theorem claim_C5_wit :
    (load_csv_into_ordereddict
        [⟨"a.txt", "Alice", "[\"chess\"]"⟩, ⟨"b.txt", "Bob", "oops"⟩])[1]?
      = some (rowKey ⟨"b.txt", "Bob", "oops"⟩, []) :=
  (claim_C5 [⟨"a.txt", "Alice", "[\"chess\"]"⟩, ⟨"b.txt", "Bob", "oops"⟩]
      1 ⟨"b.txt", "Bob", "oops"⟩ (by decide) rfl (by decide)).2.1

/-- C6: the loaded ledger always satisfies U1; when the source has
duplicate keys the surviving value for a key is that of its last row; when
the source has no duplicate keys, load returns the rows in file order. -/
theorem claim_C6 (rows : List Row) :
    U1 (load_csv_into_ordereddict rows)
    ∧ (∀ k : Key, lookup (load_csv_into_ordereddict rows) k
        = (rows.reverse.find? (fun r => rowKey r = k)).map
            (fun r => parseInterests r.interests))
    ∧ ((rows.map rowKey).Nodup →
        load_csv_into_ordereddict rows
          = rows.map (fun r => (rowKey r, parseInterests r.interests))) := by
  refine ⟨?_, ?_, ?_⟩
  · rw [load_eq_loadFrom]
    exact U1_loadFrom rows [] (by simp [U1, keysOf])
  · intro k
    rw [load_eq_loadFrom, lookup_loadFrom]
    cases rows.reverse.find? (fun r => rowKey r = k) with
    | some r => rfl
    | none => rfl
  · intro hnd
    rw [load_eq_loadFrom,
      loadFrom_of_fresh_keys rows [] (by intro r _ hm; simp [keysOf] at hm) hnd,
      List.nil_append]

theorem claim_C6_wit :
    load_csv_into_ordereddict
        [⟨"a.txt", "Alice", "[\"chess\"]"⟩, ⟨"b.txt", "Bob", "[\"golf\"]"⟩]
      = [((("a.txt" : String), ("Alice" : String)), ["chess"]),
         ((("b.txt" : String), ("Bob" : String)), ["golf"])] :=
  ((claim_C6 [⟨"a.txt", "Alice", "[\"chess\"]"⟩,
      ⟨"b.txt", "Bob", "[\"golf\"]"⟩]).2.2 (by decide)).trans (by decide)

/-- C7 as stated is false: `main` trims the extracted name but has no test
for emptiness — a fact whose trimmed name is empty is still upserted, under
the key `(basename, "")`, changing the ledger.  This counterexample runs
one fact with name `"   "` on the empty ledger. -/
theorem claim_C7_cex :
    pyStrip "   " = ""
    ∧ process_person [] "a.txt" (some "   ") (some ["x"])
        = [(("a.txt", ""), ["x"])]
    ∧ process_person [] "a.txt" (some "   ") (some ["x"]) ≠ [] := by
  refine ⟨by decide, by decide, by decide⟩

/-- C7, amended: the orchestrator trims surrounding whitespace off the
extracted name and always upserts under the trimmed name — a fact whose
trimmed name is empty is not skipped, it becomes (or updates) the entry
keyed `(basename, "")`, which is moved to the last position like any other
upsert. -/
theorem claim_C7_amended (od : Ledger) (base : String) (pname : Option String)
    (pints : Option (List String)) :
    ∃ v, (process_person od base pname pints).getLast?
        = some ((base, pyStrip (pname.getD "")), v) :=
  upsert_getLast od _ _

/-- C8 as stated is false: on the first insertion of a key, line 231 of
`src/project.py` stores the incoming interest list exactly as received, so
an incoming list with duplicate strings is stored with its duplicates. -/
theorem claim_C8_cex :
    lookup (upsert [] ("f.txt", "A") ["x", "x"]) ("f.txt", "A") = some ["x", "x"]
    ∧ ¬(["x", "x"] : List String).Nodup := by
  exact ⟨by decide, by decide⟩

/-- C8, amended: the stored interests are duplicate-free after every upsert
of an already-present key (the merge collapses duplicates and its elements
are the union of old and incoming); the first insertion of a key stores the
incoming list as-is, so only then may duplicates survive. -/
theorem claim_C8_amended (od : Ledger) (k : Key) (ints : List String) :
    (∀ old, lookup od k = some old →
        lookup (upsert od k ints) k = some (mergeInterests old ints)
        ∧ (mergeInterests old ints).Nodup
        ∧ (mergeInterests old ints).toFinset = old.toFinset ∪ ints.toFinset)
    ∧ (lookup od k = none → lookup (upsert od k ints) k = some ints) := by
  constructor
  · intro old hold
    have h := lookup_upsert_self od k ints
    rw [hold] at h
    exact ⟨h, List.nodup_dedup _, toFinset_mergeInterests old ints⟩
  · intro hnone
    have h := lookup_upsert_self od k ints
    rw [hnone] at h
    exact h

theorem claim_C8_amended_wit :
    lookup (upsert [(("f.txt", "A"), ["x"])] ("f.txt", "A") ["x", "y"])
        ("f.txt", "A") = some (mergeInterests ["x"] ["x", "y"])
    ∧ (mergeInterests ["x"] ["x", "y"]).Nodup :=
  let h := (claim_C8_amended [(("f.txt", "A"), ["x"])] ("f.txt", "A")
    ["x", "y"]).1 ["x"] rfl
  ⟨h.1, h.2.1⟩

/-- C9, Scenario B of the spec: with Alice at position 0 and Bob at
position 1, upserting Alice with `{"reading"}` moves Bob to position 0 and
Alice to position 1 with interest set `{"chess", "reading"}`. -/
theorem claim_C9 :
    upsert [(("a.txt", "Alice"), ["chess"]), (("b.txt", "Bob"), ["golf"])]
        ("a.txt", "Alice") ["reading"]
      = [(("b.txt", "Bob"), ["golf"]), (("a.txt", "Alice"), ["chess", "reading"])]
    ∧ (["chess", "reading"] : List String).toFinset = {"chess", "reading"} := by
  exact ⟨by decide, by decide⟩

/-- C10: `upsert` touches only the entry for its own key: the sub-sequence
of entries with a different key is exactly preserved (same interests, same
relative order), and lookups of any other key are unchanged. -/
theorem claim_C10 (od : Ledger) (K : Key) (I : List String) :
    (upsert od K I).filter (fun e => e.1 ≠ K) = od.filter (fun e => e.1 ≠ K)
    ∧ ∀ k', k' ≠ K → lookup (upsert od K I) k' = lookup od k' :=
  ⟨filter_upsert_frame od K I, fun k' h => lookup_upsert_ne od K k' I h⟩

theorem claim_C10_wit :
    lookup (upsert [(("a.txt", "Alice"), ["chess"])] ("b.txt", "Bob") ["golf"])
        ("a.txt", "Alice")
      = lookup [(("a.txt", "Alice"), ["chess"])] ("a.txt", "Alice") :=
  (claim_C10 [(("a.txt", "Alice"), ["chess"])] ("b.txt", "Bob") ["golf"]).2
    ("a.txt", "Alice") (by decide)

end NameExtractor
